import Mathlib

/-!
Shallow embedding of the email topic classification service: the similarity
classifier of `app/models/similarity_model.py`, the nearest-neighbor
predictor and email log of `app/services/email_topic_inference.py`, and the
topic-store persistence step.  Feature mappings are modelled by the single
scalar the core reads, namely the optional value stored under the
average-embedding key.  Float values are modelled by `ℚ` (every float value
is a rational number); similarity scores live in `ℝ` because the code
applies `exp`.
-/

namespace EmailTopics

/-- Reading of `features.get("email_embeddings_average_embedding", 0.0)`:
the value when the key is present, `0.0` when it is absent. -/
def getEmbedding (features : Option ℚ) : ℚ := features.getD 0

/-- Distance computed inside `_calculate_topic_score`:
`abs(email_embedding - float(len(topic_description)))`. -/
def scoreDistance (features : Option ℚ) (desc : String) : ℚ :=
  |getEmbedding features - (desc.length : ℚ)|

/-- Translation of `EmailClassifierModel._calculate_topic_score`: the
similarity is `exp(-distance / 50.0)`. -/
noncomputable def calculate_topic_score (features : Option ℚ) (desc : String) : ℝ :=
  Real.exp (-((scoreDistance features desc : ℚ) : ℝ) / 50)

/-- Stored email record of `emails.json`, restricted to the fields the core
reads: the assigned id, the raw text, the optional ground-truth label and
the optional scalar feature stored under the average-embedding key. -/
structure StoredEmail where
  id : Nat
  subject : String
  body : String
  ground_truth_topic : Option String
  features : Option ℚ
deriving DecidableEq

/-- Python truthiness test `if not gt` on the optional label: `None` and the
empty string are both falsy. -/
def gtTruthy : Option String → Bool
  | none => false
  | some s => !s.isEmpty

/-- Eligibility of a stored record for the nearest-neighbor scan: the loop
skips records with a falsy label and records without a stored
average-embedding feature. -/
def eligible (r : StoredEmail) : Bool :=
  gtTruthy r.ground_truth_topic && r.features.isSome

/-- Distance between the query value and a stored record's feature value;
on eligible records the feature is present and `getD 0` merely unpacks it. -/
def recDist (v : ℚ) (r : StoredEmail) : ℚ := |v - r.features.getD 0|

/-- One iteration of the scan loop of `_predict_from_store`; the state is
`(best_topic, best_dist)` with `⊤` playing the role of `float("inf")`. -/
def scanStep (v : ℚ) (best : Option String × WithTop ℚ) (e : StoredEmail) :
    Option String × WithTop ℚ :=
  if gtTruthy e.ground_truth_topic then
    match e.features with
    | none => best
    | some rv =>
        if ((|v - rv| : ℚ) : WithTop ℚ) < best.2 then
          (e.ground_truth_topic, ((|v - rv| : ℚ) : WithTop ℚ))
        else best
  else best

/-- Translation of `EmailTopicInferenceService._predict_from_store`. -/
def predict_from_store (features : Option ℚ) (emails : List StoredEmail) :
    Option String :=
  match features with
  | none => none
  | some v => (emails.foldl (scanStep v) (none, ⊤)).1

/-- Topic entry of the in-memory `topic_data` mapping: insertion-ordered
association of the stored name with its description. -/
structure Topic where
  name : String
  description : String
deriving DecidableEq

/-- One comparison of Python's `max(scores, key=scores.get)`: the current
maximum is replaced only when the challenger scores strictly higher, so the
first maximum in iteration order wins. -/
noncomputable def maxStep (f : Option ℚ) (best t : Topic) : Topic :=
  if calculate_topic_score f best.description < calculate_topic_score f t.description
  then t else best

/-- Translation of `EmailClassifierModel.predict`: score every known topic
and return the name with the maximal score; `none` models the `max()`
failure on an empty topic sequence (the `NoTopicsAvailable` error). -/
noncomputable def predict (f : Option ℚ) (topics : List Topic) : Option String :=
  match topics with
  | [] => none
  | t :: ts => some ((ts.foldl (maxStep f) t).name)

/-- Model of Python `str.lower` on the character sequence (ASCII case
mapping, as `Char.toLower` provides). -/
def lowerStr (s : String) : String := ⟨s.data.map Char.toLower⟩

/-- Model of Python `str.strip`: whitespace removed from both ends. -/
def stripStr (s : String) : String :=
  ⟨((s.data.dropWhile Char.isWhitespace).reverse.dropWhile Char.isWhitespace).reverse⟩

/-- Names held in a topic mapping, in insertion order
(`list(topic_data.keys())`). -/
def topicNames (l : List Topic) : List String := l.map Topic.name

/-- Description stored under a key, first occurrence first (association
lists here always come from dicts, whose keys are unique). -/
def lookupDesc (l : List Topic) (k : String) : Option String :=
  (l.find? (fun t => t.name == k)).map Topic.description

/-- Python `dict.update`: keys already present keep their position and take
the updating mapping's value; new keys are appended in the updating
mapping's order. -/
def dict_update (fileData mem : List Topic) : List Topic :=
  fileData.map (fun p =>
    match lookupDesc mem p.name with
    | some d => { p with description := d }
    | none => p)
  ++ mem.filter (fun q => !((topicNames fileData).contains q.name))

/-- States of the durable `topic_keywords.json` file as `_save_topic_data`
can find them. -/
inductive TopicFile where
  | missing
  | malformed
  | ok (data : List Topic)
deriving DecidableEq

/-- Translation of `EmailClassifierModel._save_topic_data`: re-read the
file and merge the passed mapping into it; a missing or malformed file is
only logged, leaving the file as it was while the caller continues. -/
def save_topic_data (file : TopicFile) (data : List Topic) : TopicFile :=
  match file with
  | .missing => .missing
  | .malformed => .malformed
  | .ok d => .ok (dict_update d data)

/-- Translation of `EmailClassifierModel.add_topic` together with its
persistence step: the incoming name is lowercased, an exact hit among the
stored keys raises `TopicAlreadyExists`, and otherwise the entry is
appended, the file merged, and the refreshed name list returned.  The first
component carries the (possibly unchanged) in-memory mapping and file. -/
def add_topic (store : List Topic) (file : TopicFile) (topicName desc : String) :
    (List Topic × TopicFile) × Except String (List String) :=
  let name := lowerStr topicName
  if (topicNames store).contains name then
    ((store, file), .error "TopicAlreadyExists")
  else
    let store' := store ++ [{ name := name, description := desc }]
    ((store', save_topic_data file store'), .ok (topicNames store'))

/-- Translation of the id computation of `_save_email`:
`max((e.get("id", 0) for e in emails), default=0)`. -/
def maxId (emails : List StoredEmail) : Nat :=
  emails.foldl (fun m e => max m e.id) 0

/-- Translation of `EmailTopicInferenceService._save_email` over a loaded
email sequence: assign `max + 1`, append, return sequence and id. -/
def save_email (emails : List StoredEmail) (r : StoredEmail) :
    List StoredEmail × Nat :=
  let newId := maxId emails + 1
  (emails ++ [{ r with id := newId }], newId)

/-- States of the durable `emails.json` file. -/
inductive EmailFile where
  | missing
  | malformed
  | ok (emails : List StoredEmail)
deriving DecidableEq

/-- Translation of `_save_email` including its file handling: a missing
file is treated as the empty sequence and created, while a malformed file
makes `json.load` raise, and that error propagates to the caller. -/
def save_email_file (file : EmailFile) (r : StoredEmail) :
    Except String (EmailFile × Nat) :=
  match file with
  | .missing =>
      let res := save_email [] r
      .ok (.ok res.1, res.2)
  | .malformed => .error "JSONDecodeError"
  | .ok es =>
      let res := save_email es r
      .ok (.ok res.1, res.2)

/-- Lookup in the comprehension `{t.lower(): t for t in topics}`: later
entries overwrite earlier ones, so the last topic whose lowercased name
equals the key wins. -/
def canonical_of (topics : List String) (key : String) : Option String :=
  topics.foldl (fun acc t => if lowerStr t == key then some t else acc) none

/-- Ground-truth validation of `store_email`: a falsy label (absent or
empty) is stored as null; otherwise the stripped, lowercased label must hit
the mapping of lowercased topic names and resolves to the stored topic's
exact name, else `InvalidGroundTruth` is raised. -/
def resolve_gt (topics : List String) (gt : Option String) :
    Except String (Option String) :=
  match gt with
  | none => .ok none
  | some s =>
    if s.isEmpty then .ok none
    else
      match canonical_of topics (lowerStr (stripStr s)) with
      | none => .error "InvalidGroundTruth"
      | some t => .ok (some t)

/-- Translation of `EmailTopicInferenceService.store_email` over a loaded
email sequence: validate the label, build the record, append it.  On a
validation error the sequence is returned unchanged. -/
def store_email (topics : List String) (emails : List StoredEmail)
    (subject body : String) (features : Option ℚ) (gt : Option String) :
    List StoredEmail × Except String Nat :=
  match resolve_gt topics gt with
  | .error e => (emails, .error e)
  | .ok g =>
      let res := save_email emails
        { id := 0, subject := subject, body := body,
          ground_truth_topic := g, features := features }
      (res.1, .ok res.2)

/-- Python's `store_topic or model_pred`: a falsy store prediction (absent
or empty) falls back to the model prediction. -/
def orFallback (storeTopic : Option String) (modelPred : String) : String :=
  match storeTopic with
  | none => modelPred
  | some s => if s.isEmpty then modelPred else s

/-- Translation of `EmailTopicInferenceService.classify_email`, restricted
to the predicted topic: the classifier baseline always runs (failing with
`NoTopicsAvailable` on an empty topic store), and under `use_store` the
nearest-neighbor prediction is preferred with fallback to the baseline. -/
noncomputable def classify_email (topics : List Topic)
    (emails : List StoredEmail) (features : Option ℚ) (useStore : Bool) :
    Except String String :=
  match predict features topics with
  | none => .error "NoTopicsAvailable"
  | some modelPred =>
      if useStore then
        .ok (orFallback (predict_from_store features emails) modelPred)
      else .ok modelPred

/-- C1: for every feature mapping and every known topic, the score is
`exp(-|email_value - length(description)| / 50.0)` with `email_value`
defaulting to `0.0` when the average-embedding key is absent; the score lies
in `(0, 1]`, is strictly decreasing in the distance, and equals `1` exactly
when `email_value` equals the description's character count. -/
theorem C1_topic_score (f : Option ℚ) (d : String) :
    calculate_topic_score f d
      = Real.exp (-(((|getEmbedding f - (d.length : ℚ)| : ℚ) : ℝ)) / 50)
    ∧ 0 < calculate_topic_score f d
    ∧ calculate_topic_score f d ≤ 1
    ∧ (calculate_topic_score f d = 1 ↔ getEmbedding f = (d.length : ℚ))
    ∧ (∀ g : Option ℚ, scoreDistance f d < scoreDistance g d →
        calculate_topic_score g d < calculate_topic_score f d) := by
  have hnn : (0 : ℚ) ≤ scoreDistance f d := abs_nonneg _
  refine ⟨rfl, Real.exp_pos _, ?_, ?_, ?_⟩
  · have : -((scoreDistance f d : ℚ) : ℝ) / 50 ≤ 0 := by
      have : (0 : ℝ) ≤ ((scoreDistance f d : ℚ) : ℝ) := by exact_mod_cast hnn
      linarith
    calc calculate_topic_score f d ≤ Real.exp 0 := Real.exp_le_exp.mpr this
    _ = 1 := Real.exp_zero
  · unfold calculate_topic_score
    rw [Real.exp_eq_one_iff]
    constructor
    · intro h
      have h50 : ((scoreDistance f d : ℚ) : ℝ) = 0 := by
        field_simp at h
        exact_mod_cast h
      have : scoreDistance f d = 0 := by exact_mod_cast h50
      have := abs_eq_zero.mp this
      linarith [sub_eq_zero.mp this]
    · intro h
      have : scoreDistance f d = 0 := by
        unfold scoreDistance
        rw [h, sub_self, abs_zero]
      rw [this]
      norm_num
  · intro g hlt
    apply Real.exp_lt_exp.mpr
    have : ((scoreDistance f d : ℚ) : ℝ) < ((scoreDistance g d : ℚ) : ℝ) := by
      exact_mod_cast hlt
    linarith

/-- Witness for C1: at a concrete input, distance `0` beats distance `2`. -/
theorem C1_topic_score_witness :
    calculate_topic_score (some 5) "abc" < calculate_topic_score (some 3) "abc" :=
  (C1_topic_score (some 3) "abc").2.2.2.2 (some 5)
    (by norm_num [scoreDistance, getEmbedding, show "abc".length = 3 from rfl, abs])

/-- Ineligible records leave the scan state untouched, and an eligible
record whose distance does not beat the current best also leaves it
untouched. -/
lemma scanStep_frame (v : ℚ) (bt : Option String) (bd : WithTop ℚ)
    (x : StoredEmail)
    (h : eligible x = true → ¬((recDist v x : ℚ) : WithTop ℚ) < bd) :
    scanStep v (bt, bd) x = (bt, bd) := by
  unfold scanStep
  cases hgt : gtTruthy x.ground_truth_topic with
  | false => simp
  | true =>
    cases hf : x.features with
    | none => simp
    | some rv =>
      have helig : eligible x = true := by
        simp [eligible, hgt, hf]
      have hd : recDist v x = |v - rv| := by
        simp [recDist, hf]
      have := h helig
      rw [hd] at this
      simp [this]

/-- An eligible record whose distance beats the current best replaces it. -/
lemma scanStep_update (v : ℚ) (bt : Option String) (bd : WithTop ℚ)
    (x : StoredEmail) (rv : ℚ) (hf : x.features = some rv)
    (hgt : gtTruthy x.ground_truth_topic = true)
    (h : ((recDist v x : ℚ) : WithTop ℚ) < bd) :
    scanStep v (bt, bd) x
      = (x.ground_truth_topic, ((recDist v x : ℚ) : WithTop ℚ)) := by
  have hd : recDist v x = |v - rv| := by
    simp [recDist, hf]
  rw [hd] at h ⊢
  simp [scanStep, hgt, hf, h]

/-- Invariant of the scan loop of `_predict_from_store`, generalized over
the accumulated best state: either no eligible record beats the incoming
best and the state is unchanged, or the result is the first eligible record
whose distance beats the incoming best and is strictly below every earlier
competitor and at most every later one. -/
lemma scan_loop_spec (v : ℚ) :
    ∀ (l : List StoredEmail) (bt : Option String) (bd : WithTop ℚ),
      ((∀ r ∈ l, eligible r = true → ¬((recDist v r : ℚ) : WithTop ℚ) < bd) →
        l.foldl (scanStep v) (bt, bd) = (bt, bd))
      ∧ ((∃ r ∈ l, eligible r = true ∧ ((recDist v r : ℚ) : WithTop ℚ) < bd) →
        ∃ l₁ r l₂, l = l₁ ++ r :: l₂ ∧ eligible r = true
          ∧ ((recDist v r : ℚ) : WithTop ℚ) < bd
          ∧ l.foldl (scanStep v) (bt, bd)
              = (r.ground_truth_topic, ((recDist v r : ℚ) : WithTop ℚ))
          ∧ (∀ y ∈ l₁, eligible y = true →
              recDist v r < recDist v y ∨ ¬((recDist v y : ℚ) : WithTop ℚ) < bd)
          ∧ (∀ y ∈ l₂, eligible y = true → recDist v r ≤ recDist v y)) := by
  intro l
  induction l with
  | nil =>
    intro bt bd
    constructor
    · intro _; rfl
    · rintro ⟨r, hr, _⟩
      exact absurd hr (List.not_mem_nil r)
  | cons x xs ih =>
    intro bt bd
    by_cases hx : eligible x = true ∧ ((recDist v x : ℚ) : WithTop ℚ) < bd
    · -- the head updates the best state
      obtain ⟨hxe, hxd⟩ := hx
      obtain ⟨rv, hrv⟩ : ∃ rv, x.features = some rv := by
        have := hxe
        simp [eligible] at this
        exact Option.isSome_iff_exists.mp this.2
      have hgt : gtTruthy x.ground_truth_topic = true := by
        have := hxe
        simp [eligible] at this
        exact this.1
      have hstep : scanStep v (bt, bd) x
          = (x.ground_truth_topic, ((recDist v x : ℚ) : WithTop ℚ)) :=
        scanStep_update v bt bd x rv hrv hgt hxd
      constructor
      · intro hall
        exact absurd hxd (hall x (List.mem_cons_self x xs) hxe)
      · intro _
        have hfold : (x :: xs).foldl (scanStep v) (bt, bd)
            = xs.foldl (scanStep v)
                (x.ground_truth_topic, ((recDist v x : ℚ) : WithTop ℚ)) := by
          rw [List.foldl_cons, hstep]
        by_cases hxs : ∃ r ∈ xs, eligible r = true
            ∧ ((recDist v r : ℚ) : WithTop ℚ) < ((recDist v x : ℚ) : WithTop ℚ)
        · -- a later record beats the head
          obtain ⟨l₁, r, l₂, hsplit, hre, hrd, hres, hpre, hpost⟩ :=
            (ih x.ground_truth_topic ((recDist v x : ℚ) : WithTop ℚ)).2 hxs
          refine ⟨x :: l₁, r, l₂, by rw [hsplit]; rfl, hre, lt_trans hrd hxd, ?_, ?_, hpost⟩
          · rw [hfold, hres]
          · intro y hy hye
            rcases List.mem_cons.mp hy with hyx | hyl
            · subst hyx
              exact Or.inl (WithTop.coe_lt_coe.mp hrd)
            · rcases hpre y hyl hye with hlt | hnlt
              · exact Or.inl hlt
              · have : recDist v x ≤ recDist v y :=
                  WithTop.coe_le_coe.mp (not_lt.mp hnlt)
                exact Or.inl (lt_of_lt_of_le (WithTop.coe_lt_coe.mp hrd) this)
        · -- the head remains the best
          push_neg at hxs
          have hall : ∀ r ∈ xs, eligible r = true →
              ¬((recDist v r : ℚ) : WithTop ℚ) < ((recDist v x : ℚ) : WithTop ℚ) := by
            intro r hr hre
            exact not_lt.mpr (hxs r hr hre)
          have hres :=
            (ih x.ground_truth_topic ((recDist v x : ℚ) : WithTop ℚ)).1 hall
          refine ⟨[], x, xs, rfl, hxe, hxd, ?_, ?_, ?_⟩
          · rw [hfold, hres]
          · intro y hy
            exact absurd hy (List.not_mem_nil y)
          · intro y hy hye
            exact WithTop.coe_le_coe.mp (not_lt.mp (hall y hy hye))
    · -- the head leaves the state untouched
      have hxframe : eligible x = true → ¬((recDist v x : ℚ) : WithTop ℚ) < bd := by
        intro hxe
        intro hlt
        exact hx ⟨hxe, hlt⟩
      have hstep : scanStep v (bt, bd) x = (bt, bd) := scanStep_frame v bt bd x hxframe
      have hfold : (x :: xs).foldl (scanStep v) (bt, bd)
          = xs.foldl (scanStep v) (bt, bd) := by
        rw [List.foldl_cons, hstep]
      constructor
      · intro hall
        rw [hfold]
        exact (ih bt bd).1 (fun r hr hre => hall r (List.mem_cons_of_mem x hr) hre)
      · rintro ⟨r, hr, hre, hrd⟩
        have hrxs : r ∈ xs := by
          rcases List.mem_cons.mp hr with hryx | h
          · subst hryx
            exact absurd ⟨hre, hrd⟩ hx
          · exact h
        obtain ⟨l₁, r', l₂, hsplit, hre', hrd', hres, hpre, hpost⟩ :=
          (ih bt bd).2 ⟨r, hrxs, hre, hrd⟩
        refine ⟨x :: l₁, r', l₂, by rw [hsplit]; rfl, hre', hrd', ?_, ?_, hpost⟩
        · rw [hfold, hres]
        · intro y hy hye
          rcases List.mem_cons.mp hy with hyx | hyl
          · subst hyx
            exact Or.inr (hxframe hye)
          · exact hpre y hyl hye

/-- C2: the nearest-neighbor predictor returns nothing when the query lacks
the average-embedding key; it skips records with a falsy label or without a
stored feature, returns nothing when no eligible candidate exists, and
otherwise returns the label of the first record attaining the minimal
distance `|query_value - candidate_value|` in storage order. -/
theorem C2_predict_from_store (v : ℚ) (es : List StoredEmail) :
    predict_from_store none es = none
    ∧ ((∀ r ∈ es, eligible r = false) → predict_from_store (some v) es = none)
    ∧ ((∃ r ∈ es, eligible r = true) →
        ∃ l₁ r l₂, es = l₁ ++ r :: l₂ ∧ eligible r = true
          ∧ predict_from_store (some v) es = r.ground_truth_topic
          ∧ (∀ y ∈ l₁, eligible y = true → recDist v r < recDist v y)
          ∧ (∀ y ∈ es, eligible y = true → recDist v r ≤ recDist v y)) := by
  refine ⟨rfl, ?_, ?_⟩
  · intro hall
    have : ∀ r ∈ es, eligible r = true → ¬((recDist v r : ℚ) : WithTop ℚ) < ⊤ := by
      intro r hr hre
      rw [hall r hr] at hre
      exact absurd hre (by simp)
    have hres := (scan_loop_spec v es none ⊤).1 this
    simp [predict_from_store, hres]
  · rintro ⟨r, hr, hre⟩
    have hrd : ((recDist v r : ℚ) : WithTop ℚ) < ⊤ := WithTop.coe_lt_top _
    obtain ⟨l₁, r', l₂, hsplit, hre', _, hres, hpre, hpost⟩ :=
      (scan_loop_spec v es none ⊤).2 ⟨r, hr, hre, hrd⟩
    refine ⟨l₁, r', l₂, hsplit, hre', ?_, ?_, ?_⟩
    · simp [predict_from_store, hres]
    · intro y hy hye
      rcases hpre y hy hye with hlt | hnlt
      · exact hlt
      · exact absurd (WithTop.coe_lt_top _) hnlt
    · intro y hy hye
      rw [hsplit] at hy
      rcases List.mem_append.mp hy with hy₁ | hy₂
      · rcases hpre y hy₁ hye with hlt | hnlt
        · exact le_of_lt hlt
        · exact absurd (WithTop.coe_lt_top _) hnlt
      · rcases List.mem_cons.mp hy₂ with hyr | hyl
        · subst hyr; exact le_refl _
        · exact hpost y hyl hye

/-- Witness for C2: a store holding a single unlabeled record yields no
prediction. -/
theorem C2_predict_from_store_witness :
    predict_from_store (some 1)
      [{ id := 2, subject := "c", body := "d",
         ground_truth_topic := none, features := some 1 }] = none :=
  (C2_predict_from_store 1
    [{ id := 2, subject := "c", body := "d",
       ground_truth_topic := none, features := some 1 }]).2.1 (by decide)

/-- Invariant of the `max` fold: the result splits the scanned sequence so
that every earlier element scores strictly lower and every element scores
at most the result. -/
lemma max_loop_spec (f : Option ℚ) :
    ∀ (l : List Topic) (b : Topic),
      ∃ l₁ l₂, b :: l = l₁ ++ (l.foldl (maxStep f) b) :: l₂
        ∧ (∀ y ∈ l₁, calculate_topic_score f y.description
            < calculate_topic_score f (l.foldl (maxStep f) b).description)
        ∧ (∀ y ∈ b :: l, calculate_topic_score f y.description
            ≤ calculate_topic_score f (l.foldl (maxStep f) b).description) := by
  intro l
  induction l with
  | nil =>
    intro b
    refine ⟨[], [], rfl, ?_, ?_⟩
    · intro y hy
      exact absurd hy (List.not_mem_nil y)
    · intro y hy
      rcases List.mem_singleton.mp hy with rfl
      exact le_refl _
  | cons x xs ih =>
    intro b
    have hfold : (x :: xs).foldl (maxStep f) b = xs.foldl (maxStep f) (maxStep f b x) :=
      rfl
    obtain ⟨l₁, l₂, hsplit, hpre, hall⟩ := ih (maxStep f b x)
    by_cases hbx : calculate_topic_score f b.description
        < calculate_topic_score f x.description
    · -- the challenger replaces the head
      have hbx' : maxStep f b x = x := by
        simp [maxStep, hbx]
      rw [hbx'] at hsplit hpre hall
      refine ⟨b :: l₁, l₂, ?_, ?_, ?_⟩
      · rw [hfold, hbx']
        simpa using congrArg (List.cons b) hsplit
      · intro y hy
        rw [hfold, hbx']
        rcases List.mem_cons.mp hy with rfl | hyl
        · exact lt_of_lt_of_le hbx (hall x (List.mem_cons_self x xs))
        · exact hpre y hyl
      · intro y hy
        rw [hfold, hbx']
        rcases List.mem_cons.mp hy with rfl | hyl
        · exact le_of_lt (lt_of_lt_of_le hbx (hall x (List.mem_cons_self x xs)))
        · exact hall y hyl
    · -- the head survives the comparison
      have hbx' : maxStep f b x = b := by
        simp [maxStep, hbx]
      rw [hbx'] at hsplit hpre hall
      cases l₁ with
      | nil =>
        -- the final maximum is the incoming head itself
        have hm : xs.foldl (maxStep f) b = b := by
          have := hsplit
          simp at this
          exact this.1.symm
        refine ⟨[], x :: xs, ?_, ?_, ?_⟩
        · rw [hfold, hbx', hm]
          rfl
        · intro y hy
          exact absurd hy (List.not_mem_nil y)
        · intro y hy
          rw [hfold, hbx', hm]
          rcases List.mem_cons.mp hy with rfl | hyl
          · exact le_refl _
          · rcases List.mem_cons.mp hyl with rfl | hyl'
            · exact not_lt.mp hbx
            · exact hm ▸ hall y (List.mem_cons_of_mem b hyl')
      | cons a as =>
        -- the final maximum sits inside the tail
        have ha : a = b := by
          have := hsplit
          simp at this
          exact this.1.symm
        subst ha
        have hxs : xs = as ++ (xs.foldl (maxStep f) a) :: l₂ := by
          have := hsplit
          simpa using this
        refine ⟨a :: x :: as, l₂, ?_, ?_, ?_⟩
        · rw [hfold, hbx']
          simpa using congrArg (fun t => a :: x :: t) hxs
        · intro y hy
          rw [hfold, hbx']
          have hb : calculate_topic_score f a.description
              < calculate_topic_score f (xs.foldl (maxStep f) a).description :=
            hpre a (List.mem_cons_self a as)
          rcases List.mem_cons.mp hy with rfl | hyl
          · exact hb
          · rcases List.mem_cons.mp hyl with rfl | hyl'
            · exact lt_of_le_of_lt (not_lt.mp hbx) hb
            · exact hpre y (List.mem_cons_of_mem a hyl')
        · intro y hy
          rw [hfold, hbx']
          rcases List.mem_cons.mp hy with rfl | hyl
          · exact hall y (List.mem_cons_self y xs)
          · rcases List.mem_cons.mp hyl with rfl | hyl'
            · exact le_trans (not_lt.mp hbx) (hall a (List.mem_cons_self a xs))
            · exact hall y (List.mem_cons_of_mem a hyl')

/-- C3: with at least one known topic, `predict` returns the name of a
topic of the store — the first topic in iteration order attaining the
maximal similarity — and on an empty topic set it yields the
`NoTopicsAvailable` failure. -/
theorem C3_predict (f : Option ℚ) (topics : List Topic) :
    (topics = [] → predict f topics = none)
    ∧ (topics ≠ [] →
        ∃ l₁ m l₂, topics = l₁ ++ m :: l₂
          ∧ predict f topics = some m.name
          ∧ m.name ∈ topics.map Topic.name
          ∧ (∀ y ∈ l₁, calculate_topic_score f y.description
              < calculate_topic_score f m.description)
          ∧ (∀ y ∈ topics, calculate_topic_score f y.description
              ≤ calculate_topic_score f m.description)) := by
  constructor
  · intro h
    subst h
    rfl
  · intro h
    match topics with
    | [] => exact absurd rfl h
    | t :: ts =>
      obtain ⟨l₁, l₂, hsplit, hpre, hall⟩ := max_loop_spec f ts t
      refine ⟨l₁, ts.foldl (maxStep f) t, l₂, hsplit, rfl, ?_, hpre, ?_⟩
      · rw [hsplit]
        simp
      · intro y hy
        exact hall y (hsplit ▸ hy)

/-- Witness for C3: a singleton topic store predicts its only topic. -/
theorem C3_predict_witness :
    predict none [{ name := "billing", description := "invoice and payment issues" }]
      = some "billing" := by
  obtain ⟨l₁, m, l₂, hsplit, hres, _, _, _⟩ :=
    (C3_predict none
      [{ name := "billing", description := "invoice and payment issues" }]).2 (by simp)
  have hm : m = { name := "billing", description := "invoice and payment issues" } := by
    cases l₁ with
    | nil =>
      simp at hsplit
      exact hsplit.1.symm
    | cons a as =>
      simp at hsplit
  rw [hres, hm]

/-- Finding under a predicate is unaffected by filtering with a predicate
that holds wherever the searched-for predicate does. -/
lemma find?_filter_of_imp {α : Type} (l : List α) (p q : α → Bool)
    (h : ∀ a, p a = true → q a = true) :
    (l.filter q).find? p = l.find? p := by
  induction l with
  | nil => rfl
  | cons x xs ih =>
    cases hq : q x with
    | true =>
      cases hp : p x with
      | true => simp [List.filter_cons, hq, List.find?_cons, hp]
      | false => simp [List.filter_cons, hq, List.find?_cons, hp, ih]
    | false =>
      have hp : p x = false := by
        cases hpx : p x with
        | true => rw [h x hpx] at hq; exact absurd hq (by simp)
        | false => rfl
      simp [List.filter_cons, hq, List.find?_cons, hp, ih]

/-- Projection of the per-entry merge of `dict_update`: the stored name is
never changed. -/
lemma dict_update_entry_name (mem : List Topic) (p : Topic) :
    (match lookupDesc mem p.name with
      | some d => { p with description := d }
      | none => p).name = p.name := by
  cases h : lookupDesc mem p.name <;> simp

/-- Keys present in the updating mapping end up with the updating mapping's
value after `dict_update`. -/
lemma lookupDesc_dict_update_of_mem (fd mem : List Topic) (k d : String)
    (h : lookupDesc mem k = some d) :
    lookupDesc (dict_update fd mem) k = some d := by
  unfold dict_update lookupDesc
  rw [List.find?_append]
  have hpred : (fun t : Topic => t.name == k) ∘
      (fun p : Topic => match lookupDesc mem p.name with
        | some dd => { p with description := dd }
        | none => p)
      = fun p : Topic => p.name == k := by
    funext p
    simp [Function.comp, dict_update_entry_name mem p]
  unfold lookupDesc at hpred
  rw [List.find?_map, hpred]
  cases hf : fd.find? (fun t => t.name == k) with
  | some t =>
    have htk : t.name = k := by
      have := List.find?_some hf
      exact eq_of_beq this
    have hlk : lookupDesc mem t.name = some d := by rw [htk]; exact h
    unfold lookupDesc at hlk
    simp [Option.or, hlk]
  | none =>
    have hnofd : ∀ t ∈ fd, ¬(t.name == k) = true := List.find?_eq_none.mp hf
    have hcont : (topicNames fd).contains k = false := by
      cases hc : (topicNames fd).contains k with
      | false => rfl
      | true =>
        have := List.mem_of_elem_eq_true hc
        obtain ⟨t, ht, hteq⟩ := List.mem_map.mp this
        exact absurd (by simp [hteq]) (hnofd t ht)
    have hfilter : (mem.filter
          (fun q => !((topicNames fd).contains q.name))).find?
          (fun t => t.name == k)
        = mem.find? (fun t => t.name == k) := by
      apply find?_filter_of_imp
      intro a ha
      have : a.name = k := eq_of_beq ha
      rw [this, hcont]
      rfl
    simp only [Option.or]
    rw [hfilter]
    unfold lookupDesc at h
    cases hm : mem.find? (fun t => t.name == k) with
    | some t₀ =>
      rw [hm] at h
      simp at h
      simp [h]
    | none =>
      rw [hm] at h
      simp at h

/-- Keys absent from the updating mapping keep the value they had in the
file at re-read time. -/
lemma lookupDesc_dict_update_of_none (fd mem : List Topic) (k : String)
    (h : lookupDesc mem k = none) :
    lookupDesc (dict_update fd mem) k = lookupDesc fd k := by
  unfold dict_update lookupDesc
  rw [List.find?_append]
  have hpred : (fun t : Topic => t.name == k) ∘
      (fun p : Topic => match lookupDesc mem p.name with
        | some dd => { p with description := dd }
        | none => p)
      = fun p : Topic => p.name == k := by
    funext p
    simp [Function.comp, dict_update_entry_name mem p]
  unfold lookupDesc at hpred
  rw [List.find?_map, hpred]
  cases hf : fd.find? (fun t => t.name == k) with
  | some t =>
    have hps := List.find?_some hf
    have htk : t.name = k := eq_of_beq hps
    have hlk : lookupDesc mem t.name = none := by rw [htk]; exact h
    unfold lookupDesc at hlk
    simp [Option.or, hlk]
  | none =>
    have hmemnone : mem.find? (fun t => t.name == k) = none := by
      unfold lookupDesc at h
      cases hm : mem.find? (fun t => t.name == k) with
      | some t₀ => rw [hm] at h; simp at h
      | none => rfl
    have hfilternone : (mem.filter
          (fun q => !((topicNames fd).contains q.name))).find?
          (fun t => t.name == k) = none := by
      rw [List.find?_eq_none]
      intro x hx
      exact List.find?_eq_none.mp hmemnone x (List.mem_of_mem_filter hx)
    simp only [Option.map_none', Option.none_or]
    rw [hfilternone]
    rfl

/-- C4 counterexample: when a stored name is not itself lowercase, a new
name matching it only case-insensitively slips past the duplicate check —
`add_topic` succeeds and grows the topic list, contradicting the claim for
arbitrary store states. -/
theorem C4_add_topic_counterexample :
    lowerStr "billing" = lowerStr "Billing"
    ∧ (add_topic [{ name := "Billing", description := "d" }]
        (.ok []) "billing" "x").2 = .ok ["Billing", "billing"]
    ∧ (add_topic [{ name := "Billing", description := "d" }]
        (.ok []) "billing" "x").1.1
      = [{ name := "Billing", description := "d" },
         { name := "billing", description := "x" }] := by
  refine ⟨by decide, rfl, rfl⟩

/-- C4 as amended: on stores whose names are lowercase (the form `add_topic`
itself maintains, since it lowercases every inserted name), any name that
case-insensitively matches a stored topic fails with `TopicAlreadyExists`,
leaving the in-memory list and the file unchanged. -/
theorem C4_add_topic_amended (store : List Topic) (file : TopicFile)
    (nm d : String)
    (hlow : ∀ t ∈ store, lowerStr t.name = t.name)
    (hmatch : ∃ t ∈ store, lowerStr t.name = lowerStr nm) :
    (add_topic store file nm d).2 = .error "TopicAlreadyExists"
    ∧ (add_topic store file nm d).1.1 = store
    ∧ (add_topic store file nm d).1.2 = file := by
  obtain ⟨t, ht, heq⟩ := hmatch
  have hname : t.name = lowerStr nm := by rw [← hlow t ht, heq]
  have hmem : lowerStr nm ∈ topicNames store := by
    rw [← hname]
    exact List.mem_map_of_mem Topic.name ht
  simp [add_topic, hmem]

/-- Witness for the amended C4: adding `BILLING` to a store holding
`billing` fails. -/
theorem C4_add_topic_amended_witness :
    (add_topic [{ name := "billing", description := "d" }] (.ok [])
        "BILLING" "x").2 = .error "TopicAlreadyExists" :=
  (C4_add_topic_amended [{ name := "billing", description := "d" }] (.ok [])
      "BILLING" "x" (by decide) (by decide)).1

/-- C7 counterexample: `_save_topic_data` receives the whole in-memory
mapping, so a key present both in memory and in the re-read file is reset
to its in-memory value — here key `a`, distinct from the new key `b`, held
`new` at re-read time yet ends holding `old`. -/
theorem C7_save_topic_counterexample :
    (add_topic [{ name := "a", description := "old" }]
        (.ok [{ name := "a", description := "new" },
              { name := "c", description := "x" }]) "b" "d").1.2
      = .ok [{ name := "a", description := "old" },
             { name := "c", description := "x" },
             { name := "b", description := "d" }]
    ∧ ("a" : String) ≠ "b"
    ∧ ("old" : String) ≠ "new" := by
  refine ⟨rfl, by decide, by decide⟩

/-- C7 as amended: the persistence step merges the whole in-memory mapping
into the re-read file, so keys absent from memory keep their re-read
values, keys present in memory take the in-memory values, and the new
entry is added. -/
theorem C7_save_topic_amended (fd mem : List Topic) (nm d : String)
    (hnew : (topicNames mem).contains (lowerStr nm) = false) :
    (add_topic mem (.ok fd) nm d).1.2
        = .ok (dict_update fd (mem ++ [{ name := lowerStr nm, description := d }]))
    ∧ lookupDesc
        (dict_update fd (mem ++ [{ name := lowerStr nm, description := d }]))
        (lowerStr nm) = some d
    ∧ (∀ k, lookupDesc mem k = none → k ≠ lowerStr nm →
        lookupDesc
          (dict_update fd (mem ++ [{ name := lowerStr nm, description := d }])) k
          = lookupDesc fd k)
    ∧ (∀ k dk, lookupDesc mem k = some dk →
        lookupDesc
          (dict_update fd (mem ++ [{ name := lowerStr nm, description := d }])) k
          = some dk) := by
  have hnotmem : ∀ x ∈ mem, ¬(x.name == lowerStr nm) = true := by
    intro x hx hbeq
    have hxk : x.name = lowerStr nm := eq_of_beq hbeq
    have hmm : lowerStr nm ∈ topicNames mem := by
      rw [← hxk]
      exact List.mem_map_of_mem Topic.name hx
    have hcont : (topicNames mem).contains (lowerStr nm) = true :=
      List.elem_eq_true_of_mem hmm
    rw [hcont] at hnew
    exact absurd hnew (by simp)
  have hnotin : lowerStr nm ∉ topicNames mem := by
    intro hm
    have hcont : (topicNames mem).contains (lowerStr nm) = true :=
      List.elem_eq_true_of_mem hm
    rw [hcont] at hnew
    exact absurd hnew (by simp)
  have hmemfind : mem.find? (fun t => t.name == lowerStr nm) = none :=
    List.find?_eq_none.mpr hnotmem
  refine ⟨?_, ?_, ?_, ?_⟩
  · simp [add_topic, hnotin, save_topic_data]
  · apply lookupDesc_dict_update_of_mem
    unfold lookupDesc
    rw [List.find?_append, hmemfind]
    simp
  · intro k hk hkne
    apply lookupDesc_dict_update_of_none
    unfold lookupDesc
    rw [List.find?_append]
    unfold lookupDesc at hk
    have hkfind : mem.find? (fun t => t.name == k) = none := by
      cases hm : mem.find? (fun t => t.name == k) with
      | some t₀ => rw [hm] at hk; simp at hk
      | none => rfl
    rw [hkfind]
    have hbeq : (lowerStr nm == k) = false := beq_eq_false_iff_ne.mpr (Ne.symm hkne)
    simp [List.find?, hbeq]
  · intro k dk hk
    apply lookupDesc_dict_update_of_mem
    unfold lookupDesc at hk ⊢
    rw [List.find?_append]
    cases hm : mem.find? (fun t => t.name == k) with
    | some t₀ =>
      rw [hm] at hk
      simp [Option.or, hk]
    | none => rw [hm] at hk; simp at hk

/-- Witness for the amended C7: adding a topic to an empty memory writes
exactly the new entry into an empty file. -/
theorem C7_save_topic_amended_witness :
    (add_topic [] (.ok []) "a" "x").1.2
      = .ok [{ name := "a", description := "x" }] := by
  have h := (C7_save_topic_amended [] [] "a" "x" (by decide)).1
  exact h.trans (by decide)

/-- C8: a missing or malformed topic file during `add_topic`'s persistence
step is only logged — the call still succeeds with the updated name list
and no write happens — while a malformed email file during an append makes
the error propagate with no success result. -/
theorem C8_storage_error_policy (store : List Topic) (nm d : String)
    (h : (topicNames store).contains (lowerStr nm) = false) :
    (add_topic store .missing nm d).2
        = .ok (topicNames (store ++ [{ name := lowerStr nm, description := d }]))
    ∧ (add_topic store .missing nm d).1.2 = .missing
    ∧ (add_topic store .malformed nm d).2
        = .ok (topicNames (store ++ [{ name := lowerStr nm, description := d }]))
    ∧ (add_topic store .malformed nm d).1.2 = .malformed
    ∧ (∀ r : StoredEmail, ∃ e, save_email_file .malformed r = .error e) := by
  have hnotin : lowerStr nm ∉ topicNames store := by
    intro hm
    have hcont : (topicNames store).contains (lowerStr nm) = true :=
      List.elem_eq_true_of_mem hm
    rw [hcont] at h
    exact absurd h (by simp)
  refine ⟨?_, ?_, ?_, ?_, ?_⟩
  · simp [add_topic, hnotin]
  · simp [add_topic, hnotin, save_topic_data]
  · simp [add_topic, hnotin]
  · simp [add_topic, hnotin, save_topic_data]
  · intro r
    exact ⟨"JSONDecodeError", rfl⟩

/-- Witness for C8: adding to an empty store with a malformed file still
succeeds while the file stays malformed. -/
theorem C8_storage_error_policy_witness :
    (add_topic [] .malformed "a" "b").2 = .ok ["a"]
    ∧ (add_topic [] .malformed "a" "b").1.2 = .malformed := by
  have h := C8_storage_error_policy [] "a" "b" (by decide)
  exact ⟨h.2.2.1.trans rfl, h.2.2.2.1⟩

/-- Result of the lowercased-key comprehension lookup: a hit is a topic of
the list whose lowercased name is the key. -/
lemma canonical_of_some (key : String) :
    ∀ (topics : List String) (acc : Option String) (t : String),
      topics.foldl (fun a u => if lowerStr u == key then some u else a) acc = some t →
      acc = some t ∨ (t ∈ topics ∧ lowerStr t = key) := by
  intro topics
  induction topics with
  | nil =>
    intro acc t h
    exact Or.inl h
  | cons x xs ih =>
    intro acc t h
    rw [List.foldl_cons] at h
    rcases ih (if lowerStr x == key then some x else acc) t h with hstep | hxs
    · by_cases hbeq : (lowerStr x == key) = true
      · rw [if_pos hbeq] at hstep
        have hx : x = t := Option.some_inj.mp hstep
        subst hx
        exact Or.inr ⟨List.mem_cons_self x xs, eq_of_beq hbeq⟩
      · rw [if_neg hbeq] at hstep
        exact Or.inl hstep
    · exact Or.inr ⟨List.mem_cons_of_mem x hxs.1, hxs.2⟩

/-- When no topic's lowercased name equals the key, the comprehension
lookup misses. -/
lemma canonical_of_none (topics : List String) (key : String)
    (h : ∀ t ∈ topics, lowerStr t ≠ key) :
    canonical_of topics key = none := by
  unfold canonical_of
  induction topics with
  | nil => rfl
  | cons x xs ih =>
    rw [List.foldl_cons]
    have hbeq : (lowerStr x == key) = false :=
      beq_eq_false_iff_ne.mpr (h x (List.mem_cons_self x xs))
    rw [hbeq]
    exact ih (fun t ht => h t (List.mem_cons_of_mem x ht))

/-- C5 counterexample: the label `" billing"` does not case-insensitively
equal the known topic `"billing"`, yet `store_email` strips it first, so
the call succeeds and appends a record instead of failing with
`InvalidGroundTruth`. -/
theorem C5_store_email_counterexample :
    (∀ t ∈ ["billing"], lowerStr " billing" ≠ lowerStr t)
    ∧ (store_email ["billing"] [] "s" "b" none (some " billing")).2 = .ok 1
    ∧ (store_email ["billing"] [] "s" "b" none (some " billing")).1
        = [{ id := 1, subject := "s", body := "b",
             ground_truth_topic := some "billing", features := none }] := by
  refine ⟨by decide, rfl, rfl⟩

/-- C5 as amended: a non-empty label whose whitespace-stripped, lowercased
form misses every topic's lowercased name fails with `InvalidGroundTruth`
and appends nothing; on a hit, the record is appended with the matching
topic's exact stored name as its ground truth. -/
theorem C5_store_email_amended (topics : List String) (emails : List StoredEmail)
    (subj body : String) (f : Option ℚ) (s : String) (hs : s.isEmpty = false) :
    ((∀ t ∈ topics, lowerStr t ≠ lowerStr (stripStr s)) →
        store_email topics emails subj body f (some s)
          = (emails, .error "InvalidGroundTruth"))
    ∧ (∀ t, canonical_of topics (lowerStr (stripStr s)) = some t →
        t ∈ topics ∧ lowerStr t = lowerStr (stripStr s)
        ∧ store_email topics emails subj body f (some s)
            = (emails ++ [{ id := maxId emails + 1, subject := subj,
                            body := body, ground_truth_topic := some t,
                            features := f }],
               .ok (maxId emails + 1))) := by
  constructor
  · intro h
    have hmiss : canonical_of topics (lowerStr (stripStr s)) = none :=
      canonical_of_none topics (lowerStr (stripStr s)) h
    simp [store_email, resolve_gt, hs, hmiss]
  · intro t hhit
    have hprop := canonical_of_some (lowerStr (stripStr s)) topics none t hhit
    rcases hprop with habs | hok
    · exact absurd habs (by simp)
    · refine ⟨hok.1, hok.2, ?_⟩
      simp [store_email, resolve_gt, hs, hhit, save_email]

/-- Witness for the amended C5: the label `"Billing "` resolves to the
stored topic name `"billing"` and the record is appended. -/
theorem C5_store_email_amended_witness :
    store_email ["billing"] [] "s" "b" none (some "Billing ")
      = ([{ id := 1, subject := "s", body := "b",
            ground_truth_topic := some "billing", features := none }],
         .ok 1) := by
  have h := (C5_store_email_amended ["billing"] [] "s" "b" none "Billing "
      (by decide)).2 "billing" (by decide)
  exact h.2.2

/-- Accumulators only grow along the running-maximum fold. -/
lemma le_foldl_max (l : List StoredEmail) :
    ∀ acc : Nat, acc ≤ l.foldl (fun m e => max m e.id) acc := by
  induction l with
  | nil => intro acc; exact le_refl acc
  | cons x xs ih =>
    intro acc
    exact le_trans (Nat.le_max_left acc x.id) (ih (max acc x.id))

/-- Every id in the list is bounded by the running-maximum fold. -/
lemma mem_le_foldl_max (l : List StoredEmail) :
    ∀ (acc : Nat), ∀ e ∈ l, e.id ≤ l.foldl (fun m e => max m e.id) acc := by
  induction l with
  | nil =>
    intro acc e he
    exact absurd he (List.not_mem_nil e)
  | cons x xs ih =>
    intro acc e he
    rcases List.mem_cons.mp he with rfl | hxs
    · exact le_trans (Nat.le_max_right acc e.id) (le_foldl_max xs (max acc e.id))
    · exact ih (max acc x.id) e hxs

/-- A list whose ids are exactly `1..k` has running maximum `k`. -/
lemma maxId_of_range (k : Nat) :
    ∀ (es : List StoredEmail),
      es.map StoredEmail.id = (List.range k).map (· + 1) → maxId es = k := by
  induction k with
  | zero =>
    intro es h
    simp at h
    subst h
    rfl
  | succ n ih =>
    intro es h
    rw [List.range_succ, List.map_append] at h
    obtain ⟨es₁, es₂, hsplit, h₁, h₂⟩ := List.map_eq_append_iff.mp h
    cases es₂ with
    | nil => simp at h₂
    | cons e rest =>
      simp at h₂
      obtain ⟨heid, hrest⟩ := h₂
      subst hrest
      have hmax₁ : maxId es₁ = n := ih es₁ h₁
      subst hsplit
      unfold maxId
      rw [List.foldl_append]
      have hstep : es₁.foldl (fun m e => max m e.id) 0 = n := hmax₁
      rw [hstep]
      simp [heid]

/-- Appending records one at a time extends the contiguous id range. -/
lemma append_all_ids :
    ∀ (rs es : List StoredEmail) (k : Nat),
      es.map StoredEmail.id = (List.range k).map (· + 1) →
      (rs.foldl (fun es' q => (save_email es' q).1) es).map StoredEmail.id
        = (List.range (k + rs.length)).map (· + 1) := by
  intro rs
  induction rs with
  | nil =>
    intro es k h
    simpa using h
  | cons q qs ih =>
    intro es k h
    rw [List.foldl_cons]
    have hmax : maxId es = k := maxId_of_range k es h
    have hnext : (save_email es q).1.map StoredEmail.id
        = (List.range (k + 1)).map (· + 1) := by
      unfold save_email
      rw [List.map_append, h, List.range_succ, List.map_append]
      simp [hmax]
    have := ih (save_email es q).1 (k + 1) hnext
    rw [this]
    have harith : k + 1 + qs.length = k + (qs.length + 1) := by omega
    rw [harith]
    rfl

/-- C6: every append assigns `max(existing ids, default 0) + 1`, an id
strictly above every stored id (never reused, even after external
deletions), and appending `N` records from an empty log yields the
contiguous ids `1..N`. -/
theorem C6_save_email (emails : List StoredEmail) (r : StoredEmail) :
    (save_email emails r).2 = maxId emails + 1
    ∧ (∀ e ∈ emails, e.id < (save_email emails r).2)
    ∧ (∀ rs : List StoredEmail,
        ((rs.foldl (fun es q => (save_email es q).1) []).map StoredEmail.id)
          = (List.range rs.length).map (· + 1)) := by
  refine ⟨rfl, ?_, ?_⟩
  · intro e he
    have := mem_le_foldl_max emails 0 e he
    have hlt : e.id < maxId emails + 1 := Nat.lt_succ_of_le this
    exact hlt
  · intro rs
    have := append_all_ids rs [] 0 (by simp)
    simpa using this

/-- Witness for C6: appending to a log holding id `3` assigns `4`, above
the stored id. -/
theorem C6_save_email_witness :
    ({ id := 3, subject := "s", body := "b", ground_truth_topic := none,
       features := none } : StoredEmail).id
      < (save_email
          [{ id := 3, subject := "s", body := "b", ground_truth_topic := none,
             features := none }]
          { id := 0, subject := "x", body := "y", ground_truth_topic := none,
            features := none }).2 :=
  (C6_save_email
    [{ id := 3, subject := "s", body := "b", ground_truth_topic := none,
       features := none }]
    { id := 0, subject := "x", body := "y", ground_truth_topic := none,
      features := none }).2.1 _ (List.mem_singleton_self _)

/-- One scan step either keeps the accumulated label or installs a truthy
one. -/
lemma scanStep_label (v : ℚ) (B : Option String × WithTop ℚ) (x : StoredEmail) :
    (scanStep v B x).1 = B.1
    ∨ ((scanStep v B x).1 = x.ground_truth_topic
        ∧ gtTruthy x.ground_truth_topic = true) := by
  unfold scanStep
  cases hgt : gtTruthy x.ground_truth_topic with
  | false => simp
  | true =>
    cases hf : x.features with
    | none => simp
    | some rv =>
      by_cases hlt : ((|v - rv| : ℚ) : WithTop ℚ) < B.2
      · right
        simp [hlt, hgt]
      · left
        simp [hlt]

/-- Labels surviving the scan fold are non-empty whenever the incoming one
is. -/
lemma scan_fold_label (v : ℚ) :
    ∀ (l : List StoredEmail) (B : Option String × WithTop ℚ),
      (∀ s, B.1 = some s → s.isEmpty = false) →
      ∀ s, (l.foldl (scanStep v) B).1 = some s → s.isEmpty = false := by
  intro l
  induction l with
  | nil =>
    intro B hB s hs
    exact hB s hs
  | cons x xs ih =>
    intro B hB s hs
    rw [List.foldl_cons] at hs
    apply ih (scanStep v B x) ?_ s hs
    intro u hu
    rcases scanStep_label v B x with hkeep | ⟨hset, htruthy⟩
    · exact hB u (hkeep ▸ hu)
    · rw [hset] at hu
      rw [hu] at htruthy
      simp [gtTruthy] at htruthy
      simpa using htruthy

/-- A store prediction is always a non-empty label. -/
lemma predict_from_store_label (f : Option ℚ) (es : List StoredEmail)
    (s : String) (h : predict_from_store f es = some s) : s.isEmpty = false := by
  cases f with
  | none => exact absurd h (by simp [predict_from_store])
  | some v =>
    exact scan_fold_label v es (none, ⊤) (by intro u hu; simp at hu) s h

/-- C9: with at least one known topic, `classify_email` returns the
classifier baseline when `use_store` is false, and with `use_store` true it
returns the nearest-neighbor label whenever the predictor yields one,
falling back to the baseline when the predictor yields nothing. -/
theorem C9_classify_email (topics : List Topic) (emails : List StoredEmail)
    (f : Option ℚ) (h : topics ≠ []) :
    ∃ mp, predict f topics = some mp
      ∧ classify_email topics emails f false = .ok mp
      ∧ (predict_from_store f emails = none →
          classify_email topics emails f true = .ok mp)
      ∧ (∀ s, predict_from_store f emails = some s →
          classify_email topics emails f true = .ok s) := by
  match topics with
  | [] => exact absurd rfl h
  | t :: ts =>
    refine ⟨(ts.foldl (maxStep f) t).name, rfl, rfl, ?_, ?_⟩
    · intro hps
      have hcl : classify_email (t :: ts) emails f true
          = .ok (orFallback (predict_from_store f emails)
              (ts.foldl (maxStep f) t).name) := rfl
      rw [hcl, hps]
      rfl
    · intro s hps
      have hne := predict_from_store_label f emails s hps
      have hcl : classify_email (t :: ts) emails f true
          = .ok (orFallback (predict_from_store f emails)
              (ts.foldl (maxStep f) t).name) := rfl
      rw [hcl, hps]
      simp [orFallback, hne]

/-- Witness for C9: with an empty email store the fallback applies. -/
theorem C9_classify_email_witness :
    classify_email [{ name := "billing", description := "x" }] [] none true
      = .ok "billing" := by
  obtain ⟨mp, hmp, _, htrue, _⟩ :=
    C9_classify_email [{ name := "billing", description := "x" }] [] none
      (by simp)
  have hpred : predict none [{ name := "billing", description := "x" }]
      = some "billing" := rfl
  rw [hpred] at hmp
  have hmpb : mp = "billing" := (Option.some_inj.mp hmp).symm
  subst hmpb
  exact htrue rfl

/-- C10: an empty-string ground-truth label is treated as no label —
`store_email` raises nothing and persists a null ground truth, and the
nearest-neighbor scan skips an empty-labeled record exactly as it skips an
unlabeled one. -/
theorem C10_empty_ground_truth (topics : List String) (emails : List StoredEmail)
    (subj body : String) (f : Option ℚ) (v : ℚ) (r : StoredEmail)
    (es₁ es₂ : List StoredEmail) :
    store_email topics emails subj body f (some "")
      = (emails ++ [{ id := maxId emails + 1, subject := subj, body := body,
                      ground_truth_topic := none, features := f }],
         .ok (maxId emails + 1))
    ∧ predict_from_store (some v)
        (es₁ ++ { r with ground_truth_topic := some "" } :: es₂)
      = predict_from_store (some v)
        (es₁ ++ { r with ground_truth_topic := none } :: es₂) := by
  constructor
  · rfl
  · have hskip₁ : ∀ B : Option String × WithTop ℚ,
        scanStep v B { r with ground_truth_topic := some "" } = B := by
      intro B
      simp [scanStep, gtTruthy, show ("" : String).isEmpty = true from rfl]
    have hskip₂ : ∀ B : Option String × WithTop ℚ,
        scanStep v B { r with ground_truth_topic := none } = B := by
      intro B
      simp [scanStep, gtTruthy]
    simp only [predict_from_store]
    rw [List.foldl_append, List.foldl_append, List.foldl_cons, List.foldl_cons,
      hskip₁, hskip₂]

end EmailTopics
